import Mathlib

/-!
Shallow embedding of the image-generation core of `src/main.rs` (the
`spinning` repository): the `VecMap` swap-remove set, the recency buffer,
the nearest-color selection, the constant-radius boundary walk, and the
main generation loop of `make_image`.

Modelling conventions:
* Machine integers (`usize`, `u8`, `i64`, `isize`) become `Nat`/`Int`;
  no arithmetic in the source can overflow for the configurations the
  claims quantify over, and `usize` saturating subtraction is `Nat`
  truncated subtraction.
* The `f64` quantities in the source are exact on the integer data the
  program feeds them (squared distances and loop counters are integers,
  well below 2^53), so they are modelled by exact `Int` arithmetic.  The
  two fractional configuration parameters `start_spread` and
  `cont_spread` are modelled as exact nonnegative rationals given by a
  numerator/denominator pair, and the source's
  `(size as f64 * start_spread) as usize` and
  `((color_dist_sq as f64).sqrt() * cont_spread) as usize` become the
  exact floors `size * num / den` and `Nat.sqrt (cds * num ^ 2) / den`
  (using `⌊√n · a / b⌋ = ⌊⌊√(n·a²)⌋ / b⌋`).
* The random number generator is an oracle: an infinite stream of raw
  naturals, one consumed per `rng.random*` call in the source, reduced
  into the requested range by `%`.  Quantifying over all streams covers
  every seed.
* Rust panics (`expect`) are modelled by `Except PanicKind`.
-/

namespace Spinning

/-- `type Location = [usize; 2]`. -/
abbrev Loc := Nat × Nat

/-- `type Color = [u8; 3]`; channels are naturals below 256. -/
abbrev Color := Nat × Nat × Nat

/-- `struct Pixel { color, loc, center }` from the source. -/
structure Pixel where
  color : Color
  loc : Loc
  center : Loc
deriving DecidableEq

/-- RNG oracle: an infinite stream of raw naturals. -/
abbrev Rng := Nat → Nat

/-- Drop the first element of the oracle stream. -/
def rngTail (g : Rng) : Rng := fun n => g (n + 1)

/-- `rng.random_range(0..n)`: one draw, reduced mod `n`. -/
def randBelow (g : Rng) (n : Nat) : Nat × Rng := (g 0 % n, rngTail g)

/-- `rng.random_range(lo..=hi)`: one draw, mapped into `[lo, hi]`
(the source panics when `lo > hi`; that never happens on the paths the
program takes, see the range lemmas below). -/
def randRangeIncl (g : Rng) (lo hi : Nat) : Nat × Rng :=
  (lo + g 0 % (hi + 1 - lo), rngTail g)

/-- `rng.random::<u8>()`: one draw, reduced mod 256. -/
def randByte (g : Rng) : Nat × Rng := (g 0 % 256, rngTail g)

/-- `struct VecMap<T> { vec: Vec<T>, map: HashMap<T, usize> }`.
The hash map is modelled extensionally as a function `T → Option Nat`
(a `HashMap` holds at most one entry per key). -/
structure VecMap (T : Type) where
  vec : List T
  map : T → Option Nat

/-- `map.insert(k, v)`. -/
def mapInsert {T : Type} [DecidableEq T] (m : T → Option Nat) (k : T) (v : Nat) :
    T → Option Nat :=
  fun x => if x = k then some v else m x

/-- `map.remove(&k)` (the removal effect; the returned old value is read
off `m k` by the caller). -/
def mapRemove {T : Type} [DecidableEq T] (m : T → Option Nat) (k : T) :
    T → Option Nat :=
  fun x => if x = k then none else m x

/-- `VecMap::new_from_vec`: the map is collected from
`vec.iter().enumerate().map(|(i, &v)| (v, i))`, i.e. sequential inserts,
later indices overwriting earlier ones. -/
def VecMap.new_from_vec {T : Type} [DecidableEq T] (vec : List T) : VecMap T :=
  { vec := vec
    map := vec.enum.foldl (fun m p => mapInsert m p.2 p.1) (fun _ => none) }

/-- `Vec::swap_remove(i)`: overwrite position `i` with the last element,
then pop the last element. -/
def swapRemove {T : Type} (l : List T) (i : Nat) : List T :=
  match l.getLast? with
  | none => l
  | some lst => (l.set i lst).dropLast

/-- `VecMap::remove_random`: `None` on the empty set; otherwise draw a
uniform index, swap-remove it, drop the removed element from the map and,
unless the removed position was the (new) end, repoint the relocated last
element's map entry at the vacated slot. -/
def VecMap.remove_random {T : Type} [DecidableEq T] (vm : VecMap T) (g : Rng) :
    Option T × VecMap T × Rng :=
  match vm.vec with
  | [] => (none, vm, g)
  | a :: t =>
    let p := randBelow g (a :: t).length
    let index := p.1
    let lst := (a :: t).getLastD a
    let out := (a :: t).getD index a
    let newVec := swapRemove (a :: t) index
    let m1 := mapRemove vm.map out
    let m2 := if index = newVec.length then m1 else mapInsert m1 lst index
    (some out, ⟨newVec, m2⟩, p.2)

/-- `VecMap::remove`: look the item up in the map; absent means `false`
and no change, present means the same swap-remove as `remove_random`.
The `vec = []` inner branch mirrors a state in which the source would
panic on `vec.last().unwrap()`; it is unreachable from any consistent
state (a map hit implies a nonempty vector) and no theorem depends on
what it returns. -/
def VecMap.remove {T : Type} [DecidableEq T] (vm : VecMap T) (item : T) :
    Bool × VecMap T :=
  match vm.map item with
  | none => (false, vm)
  | some index =>
    let m0 := mapRemove vm.map item
    match vm.vec with
    | [] => (true, ⟨[], m0⟩)
    | a :: t =>
      let lst := (a :: t).getLastD a
      let newVec := swapRemove (a :: t) index
      let m2 := if index = newVec.length then m0 else mapInsert m0 lst index
      (true, ⟨newVec, m2⟩)

/-- Rust `Iterator::min_by_key` on a nonempty list `a :: l`: fold keeping
the current best, replacing it only on a strictly smaller key, so the
first minimal element wins. -/
def minByKey {α β : Type} [LinearOrder β] (key : α → β) (a : α) (l : List α) : α :=
  l.foldl (fun best x => if key x < key best then x else best) a

/-- Rust `Iterator::min_by_key` ("if several elements are equally
minimum, the first element is returned"). -/
def minByKey? {α β : Type} [LinearOrder β] (key : α → β) : List α → Option α
  | [] => none
  | a :: t => some (minByKey key a t)

/-- Sum of squared per-channel color differences, computed in `i64` in
the source. -/
def colorDistSq (c p : Color) : Int :=
  ((c.1 : Int) - (p.1 : Int)) ^ 2 + ((c.2.1 : Int) - (p.2.1 : Int)) ^ 2 +
    ((c.2.2 : Int) - (p.2.2 : Int)) ^ 2

/-- The nearest-color selection of the growth phase:
`lookback.iter().min_by_key(...)`. -/
def selectNearest (color : Color) (lb : List Pixel) : Option Pixel :=
  minByKey? (fun p => colorDistSq color p.color) lb

/-- The closure `dist` of the walk: squared Euclidean distance from a
(possibly negative) integer point to `nearest.center`; an integer, exact
in `f64`. -/
def distSq (center : Loc) (p : Int × Int) : Int :=
  (p.1 - (center.1 : Int)) ^ 2 + (p.2 - (center.2 : Int)) ^ 2

/-- The eight Moore neighbors of `cur`, in the fixed enumeration order of
the source: (+1,+1), (0,+1), (−1,+1), (+1,0), (−1,0), (+1,−1), (0,−1),
(−1,−1). -/
def neighbors (cur : Int × Int) : List (Int × Int) :=
  [(cur.1 + 1, cur.2 + 1), (cur.1, cur.2 + 1), (cur.1 - 1, cur.2 + 1),
   (cur.1 + 1, cur.2), (cur.1 - 1, cur.2),
   (cur.1 + 1, cur.2 - 1), (cur.1, cur.2 - 1), (cur.1 - 1, cur.2 - 1)]

/-- One walk step's neighbor selection: filter out `last`, then take the
first `|dist(n) - radius|`-minimal candidate (`min_by_key` over
`n64((dist(n) - radius).abs())`, exact on integers). -/
def selectNext (center : Loc) (radius : Int) (cur lastp : Int × Int) :
    Option (Int × Int) :=
  minByKey? (fun n => |distSq center n - radius|)
    ((neighbors cur).filter (fun n => n ≠ lastp))

/-- Outcome of the boundary-walk loop. -/
inductive WalkOut where
  /-- the fuel bound of the model was reached (provably never happens
  with the fuel `make_image` passes) -/
  | fuelOut : WalkOut
  /-- the `expect("Still one left")` branch (provably unreachable) -/
  | panicked : WalkOut
  /-- the abort condition fired: fall back to random placement -/
  | fallback : WalkOut
  /-- an in-bounds open cell was found: commit a pixel there -/
  | commit (next : Int × Int) : WalkOut
deriving DecidableEq

/-- The boundary walk of `make_image`: repeatedly pick the neighbor that
keeps `dist` closest to `radius`, abort to random fallback on reaching
`start`, leaving the grid, or exceeding `8 * radius` steps, and commit on
the first open cell.  `fuel` only bounds the model's recursion; the
source's loop is unbounded and its termination is claim C6. -/
def walk (size : Nat) (grid : Loc → Option Pixel) (center : Loc) (radius : Int)
    (start : Int × Int) : Int × Int → Int × Int → Nat → Nat → WalkOut
  | _, _, _, 0 => .fuelOut
  | lastp, cur, j, fuel + 1 =>
    let j' := j + 1
    match selectNext center radius cur lastp with
    | none => .panicked
    | some next =>
      if next = start ∨ next.1 < 0 ∨ (size : Int) ≤ next.1 ∨ next.2 < 0 ∨
          (size : Int) ≤ next.2 ∨ (8 * radius : Int) < (j' : Int) then
        .fallback
      else if grid (next.1.toNat, next.2.toNat) = none then
        .commit next
      else
        walk size grid center radius start cur next j' fuel

/-- The panics of `make_image`, plus the model's fuel sentinel. -/
inductive PanicKind where
  /-- `open_locs.remove_random(&mut rng).expect("nonempty")` -/
  | nonempty : PanicKind
  /-- `lookback.iter().min_by_key(..).expect("find one")` -/
  | findOne : PanicKind
  /-- `neighbors...min_by_key(..).expect("Still one left")` -/
  | stillOne : PanicKind
  /-- walk fuel exhausted (never happens with the fuel provided) -/
  | fuelOut : PanicKind
deriving DecidableEq

/-- The configuration of `make_image`.  `start_spread = startNum/startDen`
and `cont_spread = contNum/contDen` as exact nonnegative rationals. -/
structure Config where
  size : Nat
  numCenters : Nat
  numLookback : Nat
  startNum : Nat
  startDen : Nat
  contNum : Nat
  contDen : Nat

/-- `(size as f64 * start_spread) as usize`. -/
def seedWidth (cfg : Config) : Nat := cfg.size * cfg.startNum / cfg.startDen

/-- `(((color_dist_sq as f64).sqrt() * cont_spread) as usize).max(1)`,
computed exactly: `⌊√cds · contNum / contDen⌋ = ⌊√(cds·contNum²)⌋ / contDen`. -/
def growthWidth (cfg : Config) (cds : Nat) : Nat :=
  max (Nat.sqrt (cds * cfg.contNum ^ 2) / cfg.contDen) 1

/-- The mutable state of the generation loop: the grid (a `size × size`
array of optional pixels, modelled as a function), the recency buffer
(front = most recent), the open-location set, and the RNG stream. -/
structure St where
  grid : Loc → Option Pixel
  lookback : List Pixel
  openLocs : VecMap Loc
  rng : Rng

/-- The `insert_random` closure of `make_image`: remove a random open
location (panicking if none), jitter its own coordinates by up to
`seedWidth` per axis — clamped to `[loc − width, min(loc + width, size − 1)]`
with saturating subtraction — commit the pixel, push it to the front of
the recency buffer and truncate the buffer to `num_lookback`. -/
def insertRandom (cfg : Config) (color : Color) (st : St) : Except PanicKind St :=
  match st.openLocs.remove_random st.rng with
  | (none, _, _) => .error .nonempty
  | (some loc, ol', g0) =>
    let width := seedWidth cfg
    let p0 := randRangeIncl g0 (loc.1 - width) (min (loc.1 + width) (cfg.size - 1))
    let p1 := randRangeIncl p0.2 (loc.2 - width) (min (loc.2 + width) (cfg.size - 1))
    let pixel : Pixel := ⟨color, loc, (p0.1, p1.1)⟩
    .ok { grid := fun l => if l = loc then some pixel else st.grid l
          lookback := (pixel :: st.lookback).take cfg.numLookback
          openLocs := ol'
          rng := p1.2 }

/-- The commit path of the growth phase, after the walk has found an
open in-bounds cell `next`: derive the jitter width from the color
distance to `nearest`, sample the new center per axis in
`[c − width, min(c + width, size)]` (upper clamp `size`, as in the
source), place the pixel at `next`, remove that coordinate from the
open-location set by key, push to the recency buffer and truncate. -/
def commitPixel (cfg : Config) (color : Color) (nearest : Pixel)
    (next : Int × Int) (st : St) : St :=
  let cds := (colorDistSq color nearest.color).toNat
  let width := growthWidth cfg cds
  let p0 := randRangeIncl st.rng (nearest.center.1 - width)
    (min (nearest.center.1 + width) cfg.size)
  let p1 := randRangeIncl p0.2 (nearest.center.2 - width)
    (min (nearest.center.2 + width) cfg.size)
  let loc : Loc := (next.1.toNat, next.2.toNat)
  let pixel : Pixel := ⟨color, loc, (p0.1, p1.1)⟩
  { grid := fun l => if l = loc then some pixel else st.grid l
    lookback := (pixel :: st.lookback).take cfg.numLookback
    openLocs := (st.openLocs.remove loc).2
    rng := p1.2 }

/-- The growth phase of one iteration (`i >= num_centers`): select the
nearest pixel from the recency buffer (panicking on an empty buffer),
walk the boundary of the circle of squared radius `dist(start)` around
its center, and either fall back to random insertion or commit at the
open cell found. -/
def growthStep (cfg : Config) (color : Color) (st : St) : Except PanicKind St :=
  match selectNearest color st.lookback with
  | none => .error .findOne
  | some nearest =>
    let start : Int × Int := ((nearest.loc.1 : Int), (nearest.loc.2 : Int))
    let radius := distSq nearest.center start
    match walk cfg.size st.grid nearest.center radius start start start 0
        (8 * radius.toNat + 2) with
    | .fuelOut => .error .fuelOut
    | .panicked => .error .stillOne
    | .fallback => insertRandom cfg color st
    | .commit next => .ok (commitPixel cfg color nearest next st)

/-- One iteration of the generation loop of `make_image` at index `i`:
draw a color (three byte draws), then the seeding phase
(`i < num_centers`, random insertion) or the growth phase. -/
def iterStep (cfg : Config) (i : Nat) (st : St) : Except PanicKind St :=
  let c0 := randByte st.rng
  let c1 := randByte c0.2
  let c2 := randByte c1.2
  let color : Color := (c0.1, c1.1, c2.1)
  let st1 : St := { st with rng := c2.2 }
  if i < cfg.numCenters then
    insertRandom cfg color st1
  else
    growthStep cfg color st1

/-- The initial open-location list:
`(0..size).flat_map(|i| (0..size).map(move |j| [i, j]))`. -/
def initLocs (size : Nat) : List Loc :=
  (List.range size).flatMap (fun i => (List.range size).map (fun j => (i, j)))

/-- The state before the first iteration of the generation loop. -/
def initSt (cfg : Config) (g : Rng) : St :=
  { grid := fun _ => none
    lookback := []
    openLocs := VecMap.new_from_vec (initLocs cfg.size)
    rng := g }

/-- The first `n` iterations of the generation loop (`for i in 0..size*size`
runs it for `n = size * size`); an error is the panic the source run
would die with. -/
def runN (cfg : Config) (g : Rng) : Nat → Except PanicKind St
  | 0 => .ok (initSt cfg g)
  | n + 1 =>
    match runN cfg g n with
    | .error e => .error e
    | .ok st => iterStep cfg n st

/-- Consistency of a `VecMap`: the vector is duplicate-free, every
element's reverse-index entry is its true position, and removed (absent)
elements have no entry. -/
structure Consistent {T : Type} (vm : VecMap T) : Prop where
  nodup : vm.vec.Nodup
  map_get : ∀ i (h : i < vm.vec.length), vm.map (vm.vec.get ⟨i, h⟩) = some i
  map_none : ∀ t, t ∉ vm.vec → vm.map t = none

/-- States of a `VecMap` reachable from `new_from_vec` on a
duplicate-free vector by any sequence of `remove_random` (under any RNG
stream) and `remove` calls. -/
inductive Reachable {T : Type} [DecidableEq T] : VecMap T → Prop where
  | base (v : List T) (hv : v.Nodup) : Reachable (VecMap.new_from_vec v)
  | rand (vm : VecMap T) (g : Rng) : Reachable vm → Reachable (vm.remove_random g).2.1
  | rem (vm : VecMap T) (item : T) : Reachable vm → Reachable (vm.remove item).2

/-- The master invariant of the generation loop, attached to every state
the loop can be in at an iteration boundary. -/
structure Inv (cfg : Config) (st : St) : Prop where
  /-- the open-location set is internally consistent -/
  cons : Consistent st.openLocs
  /-- open locations are in bounds -/
  openInRange : ∀ l ∈ st.openLocs.vec, l.1 < cfg.size ∧ l.2 < cfg.size
  /-- an in-bounds coordinate is open exactly when its grid cell is empty -/
  partition : ∀ l : Loc, l.1 < cfg.size → l.2 < cfg.size →
    (l ∈ st.openLocs.vec ↔ st.grid l = none)
  /-- only in-bounds cells are ever filled -/
  gridInRange : ∀ l p, st.grid l = some p → l.1 < cfg.size ∧ l.2 < cfg.size
  /-- the pixel stored at a cell records that cell as its `loc` -/
  gridLoc : ∀ l p, st.grid l = some p → p.loc = l
  /-- committed centers are clamped to `[0, size]` on both axes -/
  gridCenter : ∀ l p, st.grid l = some p →
    p.center.1 ≤ cfg.size ∧ p.center.2 ≤ cfg.size
  /-- recency-buffer pixels have in-bounds `loc` and clamped `center` -/
  lookBounds : ∀ p ∈ st.lookback, (p.loc.1 < cfg.size ∧ p.loc.2 < cfg.size) ∧
    (p.center.1 ≤ cfg.size ∧ p.center.2 ≤ cfg.size)

/-! ## Basic lemmas -/

theorem randRangeIncl_mem (g : Rng) (lo hi : Nat) (h : lo ≤ hi) :
    lo ≤ (randRangeIncl g lo hi).1 ∧ (randRangeIncl g lo hi).1 ≤ hi := by
  refine ⟨Nat.le_add_right _ _, ?_⟩
  have hm : g 0 % (hi + 1 - lo) < hi + 1 - lo := Nat.mod_lt _ (by omega)
  simp only [randRangeIncl]
  omega

theorem distSq_nonneg (center : Loc) (p : Int × Int) : 0 ≤ distSq center p := by
  unfold distSq
  positivity

/-- `minByKey key a l` is an element of `a :: l` with minimal key, and
every element before it has a strictly larger key: the fold replaces its
best only on a strict improvement, so the first minimum wins. -/
theorem minByKey_first_min {α β : Type} [LinearOrder β] (key : α → β) (a : α)
    (l : List α) :
    ∃ i : Nat, (a :: l)[i]? = some (minByKey key a l) ∧
      (∀ q ∈ a :: l, key (minByKey key a l) ≤ key q) ∧
      (∀ j, j < i → ∀ q, (a :: l)[j]? = some q →
        key (minByKey key a l) < key q) := by
  induction l generalizing a with
  | nil =>
    refine ⟨0, rfl, ?_, ?_⟩
    · intro q hq
      simp only [List.mem_singleton] at hq
      simp [minByKey, hq]
    · intro j hj
      omega
  | cons x t ih =>
    by_cases hx : key x < key a
    · have hm : minByKey key a (x :: t) = minByKey key x t := by
        simp [minByKey, hx]
      obtain ⟨i, hget, hmin, hbef⟩ := ih x
      rw [hm]
      have hmx : key (minByKey key x t) ≤ key x := hmin x (List.mem_cons_self x t)
      refine ⟨i + 1, ?_, ?_, ?_⟩
      · rw [List.getElem?_cons_succ]
        exact hget
      · intro q hq
        rcases List.mem_cons.mp hq with rfl | hq
        · exact le_of_lt (lt_of_le_of_lt hmx hx)
        · exact hmin q hq
      · intro j hj q hjq
        match j with
        | 0 =>
          rw [List.getElem?_cons_zero] at hjq
          obtain rfl : a = q := by injection hjq
          exact lt_of_le_of_lt hmx hx
        | k + 1 =>
          rw [List.getElem?_cons_succ] at hjq
          exact hbef k (by omega) q hjq
    · have hm : minByKey key a (x :: t) = minByKey key a t := by
        simp [minByKey, hx]
      have hax : key a ≤ key x := le_of_not_lt hx
      obtain ⟨i, hget, hmin, hbef⟩ := ih a
      rw [hm]
      match i, hget, hbef with
      | 0, hget, hbef =>
        rw [List.getElem?_cons_zero] at hget
        have heq : minByKey key a t = a := by
          injection hget with hget'
          exact hget'.symm
        rw [heq] at hmin ⊢
        refine ⟨0, rfl, ?_, ?_⟩
        · intro q hq
          rcases List.mem_cons.mp hq with rfl | hq
          · exact le_refl _
          · rcases List.mem_cons.mp hq with rfl | hq
            · exact hax
            · exact hmin q (List.mem_cons_of_mem a hq)
        · intro j hj
          omega
      | k + 1, hget, hbef =>
        rw [List.getElem?_cons_succ] at hget
        have h0 : key (minByKey key a t) < key a :=
          hbef 0 (by omega) a List.getElem?_cons_zero
        refine ⟨k + 2, ?_, ?_, ?_⟩
        · rw [List.getElem?_cons_succ, List.getElem?_cons_succ]
          exact hget
        · intro q hq
          rcases List.mem_cons.mp hq with rfl | hq
          · exact le_of_lt h0
          · rcases List.mem_cons.mp hq with rfl | hq
            · exact le_of_lt (lt_of_lt_of_le h0 hax)
            · exact hmin q (List.mem_cons_of_mem a hq)
        · intro j hj q hjq
          match j with
          | 0 =>
            rw [List.getElem?_cons_zero] at hjq
            obtain rfl : a = q := by injection hjq
            exact h0
          | 1 =>
            rw [List.getElem?_cons_succ, List.getElem?_cons_zero] at hjq
            obtain rfl : x = q := by injection hjq
            exact lt_of_lt_of_le h0 hax
          | m + 2 =>
            rw [List.getElem?_cons_succ, List.getElem?_cons_succ] at hjq
            exact hbef (m + 1) (by omega) q
              (by rw [List.getElem?_cons_succ]; exact hjq)

/-- `minByKey?` characterization: a returned element sits at an index
whose key is globally minimal and strictly below every earlier key. -/
theorem minByKey?_first_min {α β : Type} [LinearOrder β] (key : α → β)
    (l : List α) (m : α) (h : minByKey? key l = some m) :
    ∃ i : Nat, l[i]? = some m ∧ (∀ q ∈ l, key m ≤ key q) ∧
      (∀ j, j < i → ∀ q, l[j]? = some q → key m < key q) := by
  match l, h with
  | a :: t, h =>
    obtain rfl : minByKey key a t = m := by
      simpa [minByKey?] using h
    exact minByKey_first_min key a t

theorem minByKey?_isSome {α β : Type} [LinearOrder β] (key : α → β)
    (l : List α) (hl : l ≠ []) : ∃ m, minByKey? key l = some m := by
  match l, hl with
  | a :: t, _ => exact ⟨minByKey key a t, rfl⟩

theorem minByKey?_mem {α β : Type} [LinearOrder β] (key : α → β)
    (l : List α) (m : α) (h : minByKey? key l = some m) : m ∈ l := by
  obtain ⟨i, hi, -, -⟩ := minByKey?_first_min key l m h
  exact List.getElem?_mem hi

/-! ## Claims C4 and C5: the two first-minimum selections -/

/-- C4: in the growth phase, the selected nearest pixel is an element of
the recency buffer whose sum of squared per-channel color differences to
the drawn color is minimal, and every buffer element before it (scanning
front-to-back, i.e. most recent first) has a strictly larger color
distance — so on ties the first, most recent, minimal element wins. -/
theorem nearest_selection_spec (color : Color) (lb : List Pixel) (p : Pixel)
    (h : selectNearest color lb = some p) :
    ∃ i : Nat, lb[i]? = some p ∧
      (∀ q ∈ lb, colorDistSq color p.color ≤ colorDistSq color q.color) ∧
      (∀ j, j < i → ∀ q, lb[j]? = some q →
        colorDistSq color p.color < colorDistSq color q.color) := by
  unfold selectNearest at h
  exact minByKey?_first_min _ lb p h

set_option maxRecDepth 8000 in
/-- Witness for C4 at a concrete tie: two buffer pixels with the same
color; the selection returns the front (most recent) one. -/
theorem nearest_selection_spec_witness :
    selectNearest (0, 0, 0)
      [⟨(0, 0, 0), (0, 0), (0, 0)⟩, ⟨(0, 0, 0), (1, 1), (1, 1)⟩] =
      some ⟨(0, 0, 0), (0, 0), (0, 0)⟩ ∧
    ∃ i : Nat, ([⟨(0, 0, 0), (0, 0), (0, 0)⟩, ⟨(0, 0, 0), (1, 1), (1, 1)⟩] :
        List Pixel)[i]? = some ⟨(0, 0, 0), (0, 0), (0, 0)⟩ ∧
      (∀ q ∈ ([⟨(0, 0, 0), (0, 0), (0, 0)⟩, ⟨(0, 0, 0), (1, 1), (1, 1)⟩] :
          List Pixel),
        colorDistSq (0, 0, 0) (0, 0, 0) ≤ colorDistSq (0, 0, 0) q.color) ∧
      (∀ j, j < i → ∀ q,
        ([⟨(0, 0, 0), (0, 0), (0, 0)⟩, ⟨(0, 0, 0), (1, 1), (1, 1)⟩] :
          List Pixel)[j]? = some q →
        colorDistSq (0, 0, 0) (0, 0, 0) < colorDistSq (0, 0, 0) q.color) :=
  ⟨by decide,
    nearest_selection_spec (0, 0, 0)
      [⟨(0, 0, 0), (0, 0), (0, 0)⟩, ⟨(0, 0, 0), (1, 1), (1, 1)⟩]
      ⟨(0, 0, 0), (0, 0), (0, 0)⟩ (by decide)⟩

/-- C5: each walk step selects, among the 8 Moore neighbors of `cur` in
the fixed enumeration order (+1,+1), (0,+1), (−1,+1), (+1,0), (−1,0),
(+1,−1), (0,−1), (−1,−1) with any neighbor equal to `last` filtered out,
a candidate with minimal `|dist − radius|`; every candidate before it in
enumeration order has a strictly larger key, so ties go to the first. -/
theorem walk_step_selection_spec (center : Loc) (radius : Int)
    (cur lastp next : Int × Int) (h : selectNext center radius cur lastp = some next) :
    ∃ i : Nat, ((neighbors cur).filter (fun n => n ≠ lastp))[i]? = some next ∧
      (∀ q ∈ (neighbors cur).filter (fun n => n ≠ lastp),
        |distSq center next - radius| ≤ |distSq center q - radius|) ∧
      (∀ j, j < i → ∀ q, ((neighbors cur).filter (fun n => n ≠ lastp))[j]? = some q →
        |distSq center next - radius| < |distSq center q - radius|) := by
  unfold selectNext at h
  exact minByKey?_first_min _ ((neighbors cur).filter (fun n => n ≠ lastp)) next h

set_option maxRecDepth 8000 in
/-- Witness for C5 at a concrete input: from `cur = last = (0,0)` with
center `(0,0)` and radius `0`, the selection returns `(0, 1)` (the first
of the two orthogonal candidates tied at key 1). -/
theorem walk_step_selection_spec_witness :
    selectNext (0, 0) 0 (0, 0) (0, 0) = some (0, 1) ∧
    ∃ i : Nat, ((neighbors (0, 0)).filter (fun n => n ≠ (0, 0)))[i]? = some (0, 1) ∧
      (∀ q ∈ (neighbors (0, 0)).filter (fun n => n ≠ (0, 0)),
        |distSq (0, 0) (0, 1) - 0| ≤ |distSq (0, 0) q - 0|) ∧
      (∀ j, j < i → ∀ q, ((neighbors (0, 0)).filter (fun n => n ≠ (0, 0)))[j]? = some q →
        |distSq (0, 0) (0, 1) - 0| < |distSq (0, 0) q - 0|) :=
  ⟨by decide, walk_step_selection_spec (0, 0) 0 (0, 0) (0, 0) (0, 1) (by decide)⟩

/-! ## The boundary walk: safety and termination -/

/-- The candidate filter never empties: the first two neighbor offsets
differ from each other, so at most one of them can equal `last`
(the source's `expect("Still one left")`). -/
theorem selectNext_isSome (center : Loc) (radius : Int) (cur lastp : Int × Int) :
    ∃ n, selectNext center radius cur lastp = some n := by
  unfold selectNext
  rcases hfil : (neighbors cur).filter (fun n => n ≠ lastp) with - | ⟨a, t⟩
  · exfalso
    rw [List.filter_eq_nil_iff] at hfil
    have h1 : ((cur.1 + 1, cur.2 + 1) : Int × Int) = lastp := by
      simpa using hfil (cur.1 + 1, cur.2 + 1) (by simp [neighbors])
    have h2 : ((cur.1, cur.2 + 1) : Int × Int) = lastp := by
      simpa using hfil (cur.1, cur.2 + 1) (by simp [neighbors])
    rw [← h2] at h1
    have := congrArg Prod.fst h1
    simp only [Prod.fst] at this
    omega
  · exact ⟨minByKey (fun n => |distSq center n - radius|) a t, rfl⟩

/-- The walk never reaches the `expect("Still one left")` panic. -/
theorem walk_ne_panicked (size : Nat) (grid : Loc → Option Pixel) (center : Loc)
    (radius : Int) (start : Int × Int) :
    ∀ (fuel j : Nat) (lastp cur : Int × Int),
      walk size grid center radius start lastp cur j fuel ≠ .panicked := by
  intro fuel
  induction fuel with
  | zero => intro j lastp cur; simp [walk]
  | succ fuel ih =>
    intro j lastp cur
    obtain ⟨n, hn⟩ := selectNext_isSome center radius cur lastp
    simp only [walk, hn]
    split
    · simp
    · split
      · simp
      · exact ih (j + 1) cur n

/-- Fuel sufficiency for the walk: once the entry step counter plus the
remaining fuel passes `8 * radius`, the safety valve fires before the
fuel runs out. -/
theorem walk_fuel_sufficient (size : Nat) (grid : Loc → Option Pixel) (center : Loc)
    (radius : Int) (start : Int × Int) :
    ∀ (fuel j : Nat) (lastp cur : Int × Int),
      8 * radius + 1 ≤ (j : Int) + (fuel : Int) → 1 ≤ fuel →
      walk size grid center radius start lastp cur j fuel ≠ .fuelOut := by
  intro fuel
  induction fuel with
  | zero => intro j lastp cur hsum hf; omega
  | succ fuel ih =>
    intro j lastp cur hsum hf
    obtain ⟨n, hn⟩ := selectNext_isSome center radius cur lastp
    simp only [walk, hn]
    split
    · simp
    · next habort =>
      split
      · simp
      · have hj : ((j : Int) + 1) ≤ 8 * radius := by
          by_contra hc
          exact habort (Or.inr (Or.inr (Or.inr (Or.inr (Or.inr (by push_cast; omega))))))
        refine ih (j + 1) cur n (by push_cast; push_cast at hsum; omega) ?_
        push_cast at hsum
        omega

/-- When the walk commits, the committed cell is strictly inside the
grid and was empty. -/
theorem walk_commit_props (size : Nat) (grid : Loc → Option Pixel) (center : Loc)
    (radius : Int) (start : Int × Int) :
    ∀ (fuel j : Nat) (lastp cur next : Int × Int),
      walk size grid center radius start lastp cur j fuel = .commit next →
      0 ≤ next.1 ∧ next.1 < (size : Int) ∧ 0 ≤ next.2 ∧ next.2 < (size : Int) ∧
        grid (next.1.toNat, next.2.toNat) = none := by
  intro fuel
  induction fuel with
  | zero => intro j lastp cur next h; simp [walk] at h
  | succ fuel ih =>
    intro j lastp cur next h
    obtain ⟨n, hn⟩ := selectNext_isSome center radius cur lastp
    simp only [walk, hn] at h
    revert h
    split
    · intro h; exact absurd h (by simp)
    · next habort =>
      push_neg at habort
      obtain ⟨-, h1, h2, h3, h4, -⟩ := habort
      split
      · next hgrid =>
        intro h
        obtain rfl : n = next := by injection h
        exact ⟨h1, h2, h3, h4, hgrid⟩
      · intro h
        exact ih (j + 1) cur n next h

/-- C6: for any nearest pixel, with `start = nearest.loc` and
`radius = dist(start)`, the boundary walk terminates — by aborting to the
random fallback or by committing a pixel — within
`max(1, 8·radius) + 1` loop iterations (the model's fuel counts one unit
per loop iteration). -/
theorem walk_terminates (size : Nat) (grid : Loc → Option Pixel) (p : Pixel) :
    walk size grid p.center
        (distSq p.center ((p.loc.1 : Int), (p.loc.2 : Int)))
        ((p.loc.1 : Int), (p.loc.2 : Int)) ((p.loc.1 : Int), (p.loc.2 : Int))
        ((p.loc.1 : Int), (p.loc.2 : Int)) 0
        (max 1 (8 * (distSq p.center ((p.loc.1 : Int), (p.loc.2 : Int))).toNat) + 1) =
        .fallback ∨
      ∃ next, walk size grid p.center
        (distSq p.center ((p.loc.1 : Int), (p.loc.2 : Int)))
        ((p.loc.1 : Int), (p.loc.2 : Int)) ((p.loc.1 : Int), (p.loc.2 : Int))
        ((p.loc.1 : Int), (p.loc.2 : Int)) 0
        (max 1 (8 * (distSq p.center ((p.loc.1 : Int), (p.loc.2 : Int))).toNat) + 1) =
        .commit next := by
  set start : Int × Int := ((p.loc.1 : Int), (p.loc.2 : Int)) with hstart
  set radius : Int := distSq p.center start with hradius
  have hr0 : 0 ≤ radius := distSq_nonneg p.center start
  set fuel : Nat := max 1 (8 * radius.toNat) + 1 with hfuel
  have hsum : 8 * radius + 1 ≤ (0 : Int) + (fuel : Int) := by
    have h1 : 8 * radius.toNat ≤ max 1 (8 * radius.toNat) := le_max_right _ _
    have h2 : ((radius.toNat : Int)) = radius := Int.toNat_of_nonneg hr0
    push_cast
    omega
  have hfo := walk_fuel_sufficient size grid p.center radius start fuel 0 start start
    hsum (by omega)
  have hpan := walk_ne_panicked size grid p.center radius start fuel 0 start start
  rcases hw : walk size grid p.center radius start start start 0 fuel with - | - | - | next
  · exact absurd hw hfo
  · exact absurd hw hpan
  · exact Or.inl rfl
  · exact Or.inr ⟨next, rfl⟩

/-- C7: when `radius = dist(start) = 0` (the nearest pixel sits on its
own center), the walk's very first iteration has `j = 1 > 8·0`, so it
aborts to the random fallback immediately, committing nothing — with any
fuel, i.e. with fuel 1 as well, showing only one loop iteration runs. -/
theorem walk_zero_radius_fallback (size : Nat) (grid : Loc → Option Pixel)
    (p : Pixel) (fuel : Nat)
    (h : distSq p.center ((p.loc.1 : Int), (p.loc.2 : Int)) = 0) (hf : 1 ≤ fuel) :
    walk size grid p.center
      (distSq p.center ((p.loc.1 : Int), (p.loc.2 : Int)))
      ((p.loc.1 : Int), (p.loc.2 : Int)) ((p.loc.1 : Int), (p.loc.2 : Int))
      ((p.loc.1 : Int), (p.loc.2 : Int)) 0 fuel = .fallback := by
  match fuel, hf with
  | f + 1, _ =>
    set start : Int × Int := ((p.loc.1 : Int), (p.loc.2 : Int)) with hstart
    obtain ⟨n, hn⟩ := selectNext_isSome p.center (distSq p.center start) start start
    simp only [walk, hn]
    rw [if_pos]
    right; right; right; right; right
    rw [h]
    norm_num

/-- Witness for C7: a pixel located at its own center, radius 0, fuel 1.  -/
theorem walk_zero_radius_fallback_witness :
    distSq ((0, 0) : Loc) (((0 : Nat) : Int), ((0 : Nat) : Int)) = 0 ∧ (1 : Nat) ≤ 1 ∧
      walk 1 (fun _ => none) (Pixel.mk (0, 0, 0) (0, 0) (0, 0)).center
        (distSq (Pixel.mk (0, 0, 0) (0, 0) (0, 0)).center
          (((Pixel.mk (0, 0, 0) (0, 0) (0, 0)).loc.1 : Int),
            ((Pixel.mk (0, 0, 0) (0, 0) (0, 0)).loc.2 : Int)))
        (((Pixel.mk (0, 0, 0) (0, 0) (0, 0)).loc.1 : Int),
          ((Pixel.mk (0, 0, 0) (0, 0) (0, 0)).loc.2 : Int))
        (((Pixel.mk (0, 0, 0) (0, 0) (0, 0)).loc.1 : Int),
          ((Pixel.mk (0, 0, 0) (0, 0) (0, 0)).loc.2 : Int))
        (((Pixel.mk (0, 0, 0) (0, 0) (0, 0)).loc.1 : Int),
          ((Pixel.mk (0, 0, 0) (0, 0) (0, 0)).loc.2 : Int)) 0 1 = .fallback :=
  ⟨by decide, le_refl 1,
    walk_zero_radius_fallback 1 (fun _ => none) (Pixel.mk (0, 0, 0) (0, 0) (0, 0)) 1
      (by decide) (le_refl 1)⟩

/-! ## The `VecMap`: swap-remove preserves consistency -/

theorem swapRemove_eq {T : Type} (l : List T) (i : Nat) (h : l ≠ []) :
    swapRemove l i = (l.set i (l.getLast h)).dropLast := by
  unfold swapRemove
  rw [List.getLast?_eq_getLast l h]

theorem swapRemove_length {T : Type} (l : List T) (i : Nat) (h : l ≠ []) :
    (swapRemove l i).length = l.length - 1 := by
  rw [swapRemove_eq l i h, List.length_dropLast, List.length_set]

theorem swapRemove_getElem {T : Type} (l : List T) (i : Nat) (h : l ≠ [])
    (k : Nat) (hk : k < (swapRemove l i).length) (hk2 : k < l.length) :
    (swapRemove l i)[k] = if i = k then l.getLast h else l[k] := by
  have hk' : k < ((l.set i (l.getLast h)).dropLast).length := by
    rw [← swapRemove_eq l i h]
    exact hk
  have hk3 : k < (l.set i (l.getLast h)).length := by
    rw [List.length_set]
    exact hk2
  calc (swapRemove l i)[k] = ((l.set i (l.getLast h)).dropLast)[k] := by
        congr 1
        exact swapRemove_eq l i h
    _ = (l.set i (l.getLast h))[k] := List.getElem_dropLast _ k hk'
    _ = if i = k then l.getLast h else l[k] := List.getElem_set _

theorem swapRemove_mem {T : Type} (l : List T) (i : Nat) (h : l ≠ [])
    (hi : i < l.length) (hnd : l.Nodup) (x : T) :
    x ∈ swapRemove l i ↔ x ∈ l ∧ x ≠ l[i] := by
  have hlen : (swapRemove l i).length = l.length - 1 := swapRemove_length l i h
  have hlast : l.getLast h = l[l.length - 1] := List.getLast_eq_getElem l h
  have hlpos : 0 < l.length := List.length_pos.mpr h
  constructor
  · intro hx
    obtain ⟨k, hk, hkx⟩ := List.mem_iff_getElem.mp hx
    have hk2 : k < l.length := by omega
    rw [swapRemove_getElem l i h k hk hk2] at hkx
    by_cases hik : i = k
    · rw [if_pos hik] at hkx
      subst hkx
      rw [hlast]
      refine ⟨List.getElem_mem _, ?_⟩
      intro hcon
      have : l.length - 1 = i := (hnd.getElem_inj_iff).mp hcon
      omega
    · rw [if_neg hik] at hkx
      subst hkx
      refine ⟨List.getElem_mem _, ?_⟩
      intro hcon
      have : k = i := (hnd.getElem_inj_iff).mp hcon
      omega
  · rintro ⟨hx, hne⟩
    obtain ⟨k, hk, hkx⟩ := List.mem_iff_getElem.mp hx
    by_cases hkl : k = l.length - 1
    · have hii : i ≠ l.length - 1 := by
        intro hcon
        apply hne
        rw [← hkx]
        subst hkl
        congr 1
        omega
      have hib : i < (swapRemove l i).length := by omega
      refine List.mem_iff_getElem.mpr ⟨i, hib, ?_⟩
      rw [swapRemove_getElem l i h i hib hi, if_pos rfl, hlast, ← hkx]
      congr 1
      omega
    · have hki : k ≠ i := by
        intro hcon
        subst hcon
        exact hne hkx.symm
      have hkb : k < (swapRemove l i).length := by omega
      refine List.mem_iff_getElem.mpr ⟨k, hkb, ?_⟩
      rw [swapRemove_getElem l i h k hkb hk, if_neg (fun hcon => hki hcon.symm)]
      exact hkx

theorem swapRemove_nodup {T : Type} (l : List T) (i : Nat) (h : l ≠ [])
    (hnd : l.Nodup) : (swapRemove l i).Nodup := by
  have hlpos : 0 < l.length := List.length_pos.mpr h
  have hlast : l.getLast h = l[l.length - 1] := List.getLast_eq_getElem l h
  rw [List.nodup_iff_injective_get]
  rintro ⟨k, hk⟩ ⟨k', hk'⟩ heq
  have hk2 : k < l.length := by
    have := swapRemove_length l i h
    omega
  have hk2' : k' < l.length := by
    have := swapRemove_length l i h
    omega
  have hnewlen : (swapRemove l i).length = l.length - 1 := swapRemove_length l i h
  simp only [List.get_eq_getElem] at heq
  rw [swapRemove_getElem l i h k hk hk2, swapRemove_getElem l i h k' hk' hk2'] at heq
  apply Fin.ext
  simp only []
  by_cases h1 : i = k <;> by_cases h2 : i = k'
  · omega
  · rw [if_pos h1, if_neg h2, hlast] at heq
    have : l.length - 1 = k' := hnd.getElem_inj_iff.mp heq
    omega
  · rw [if_neg h1, if_pos h2, hlast] at heq
    have : k = l.length - 1 := hnd.getElem_inj_iff.mp heq
    omega
  · rw [if_neg h1, if_neg h2] at heq
    exact hnd.getElem_inj_iff.mp heq

/-- The common vector-and-map update of `remove_random` and `remove`:
swap-remove position `index`, drop the removed element's map entry and,
unless the removed position was the (new) length, repoint the old last
element's entry.  It preserves consistency, removes exactly `l[index]`,
and shrinks the vector by one. -/
theorem core_update_consistent {T : Type} [DecidableEq T]
    (v : List T) (m : T → Option Nat) (index : Nat)
    (hc : Consistent ⟨v, m⟩) (hne : v ≠ []) (hi : index < v.length) :
    Consistent ⟨swapRemove v index,
        if index = (swapRemove v index).length
        then mapRemove m v[index]
        else mapInsert (mapRemove m v[index]) (v.getLast hne) index⟩ ∧
      (∀ x, x ∈ swapRemove v index ↔ x ∈ v ∧ x ≠ v[index]) ∧
      (swapRemove v index).length + 1 = v.length := by
  have hnd : v.Nodup := hc.nodup
  have hlpos : 0 < v.length := List.length_pos.mpr hne
  have hnewlen : (swapRemove v index).length = v.length - 1 :=
    swapRemove_length v index hne
  have hlast : v.getLast hne = v[v.length - 1] := List.getLast_eq_getElem v hne
  have hmem := swapRemove_mem v index hne hi hnd
  have hmapget : ∀ (k : Nat) (hk : k < v.length), m v[k] = some k := by
    intro k hk
    have := hc.map_get k hk
    simpa using this
  refine ⟨⟨swapRemove_nodup v index hne hnd, ?_, ?_⟩, hmem, by omega⟩
  · -- every surviving element maps to its new position
    intro k hk
    have hk' : k < (swapRemove v index).length := hk
    show (if index = (swapRemove v index).length
          then mapRemove m v[index]
          else mapInsert (mapRemove m v[index]) (v.getLast hne) index)
        ((swapRemove v index).get ⟨k, hk⟩) = some k
    simp only [List.get_eq_getElem]
    rw [swapRemove_getElem v index hne k hk' (by omega)]
    by_cases hidx : index = (swapRemove v index).length
    · -- the removed position was the last: elements keep their places
      rw [if_pos hidx]
      have hik : index ≠ k := by omega
      rw [if_neg hik]
      have hne2 : v[k] ≠ v[index] := by
        intro hcon
        exact hik ((hnd.getElem_inj_iff.mp hcon).symm)
      simp only [mapRemove, if_neg hne2]
      exact hmapget k (by omega)
    · rw [if_neg hidx]
      have hidxlt : index < v.length - 1 := by
        have : index ≠ (swapRemove v index).length := hidx
        omega
      by_cases hik : index = k
      · -- the relocated last element now lives at `index`
        subst hik
        rw [if_pos rfl]
        simp [mapInsert]
      · rw [if_neg hik]
        have hkne : v[k] ≠ v.getLast hne := by
          rw [hlast]
          intro hcon
          have : k = v.length - 1 := hnd.getElem_inj_iff.mp hcon
          omega
        have hkni : v[k] ≠ v[index] := by
          intro hcon
          exact hik ((hnd.getElem_inj_iff.mp hcon).symm)
        simp only [mapInsert, if_neg hkne, mapRemove, if_neg hkni]
        exact hmapget k (by omega)
  · -- removed or absent elements have no entry
    intro t ht
    have ht2 : t ∉ swapRemove v index := ht
    show (if index = (swapRemove v index).length
          then mapRemove m v[index]
          else mapInsert (mapRemove m v[index]) (v.getLast hne) index) t = none
    rw [hmem t] at ht2
    push_neg at ht2
    by_cases htv : t ∈ v
    · have hteq : t = v[index] := ht2 htv
      by_cases hidx : index = (swapRemove v index).length
      · rw [if_pos hidx]
        simp [mapRemove, hteq]
      · rw [if_neg hidx]
        have htne : t ≠ v.getLast hne := by
          rw [hteq, hlast]
          intro hcon
          have : index = v.length - 1 := hnd.getElem_inj_iff.mp hcon
          omega
        simp only [mapInsert, if_neg htne]
        simp [mapRemove, hteq]
    · have htne1 : t ≠ v[index] := by
        intro hcon
        exact htv (hcon ▸ List.getElem_mem hi)
      have htne2 : t ≠ v.getLast hne := by
        intro hcon
        exact htv (hcon ▸ List.getLast_mem hne)
      by_cases hidx : index = (swapRemove v index).length
      · rw [if_pos hidx]
        simp only [mapRemove, if_neg htne1]
        exact hc.map_none t htv
      · rw [if_neg hidx]
        simp only [mapInsert, if_neg htne2, mapRemove, if_neg htne1]
        exact hc.map_none t htv

/-- Applying the fold of sequential `mapInsert`s: the last pair inserted
for a key wins, i.e. the first hit in the reversed list. -/
theorem foldl_mapInsert_apply {T : Type} [DecidableEq T] (l : List (Nat × T))
    (m : T → Option Nat) (x : T) :
    (l.foldl (fun m p => mapInsert m p.2 p.1) m) x =
      ((l.reverse.find? (fun p => p.2 = x)).map (fun p => some p.1)).getD (m x) := by
  induction l generalizing m with
  | nil => simp
  | cons a l ih =>
    rw [List.foldl_cons, ih, List.reverse_cons, List.find?_append]
    rcases hfind : l.reverse.find? (fun p => p.2 = x) with - | p
    · rw [hfind]
      by_cases hax : a.2 = x
      · have h1 : List.find? (fun p => (p.2 = x : Bool)) [a] = some a :=
          List.find?_cons_of_pos _ (by simp [hax])
        rw [h1]
        simp [mapInsert, hax.symm]
      · have h1 : List.find? (fun p => (p.2 = x : Bool)) [a] = none := by
          rw [List.find?_eq_none]
          intro b hb
          simp only [List.mem_singleton] at hb
          subst hb
          simp [hax]
        rw [h1]
        have hxa : x ≠ a.2 := fun hcon => hax hcon.symm
        simp [mapInsert, hxa]
    · rw [hfind]
      simp

theorem new_from_vec_consistent {T : Type} [DecidableEq T] (v : List T)
    (hv : v.Nodup) : Consistent (VecMap.new_from_vec v) := by
  refine ⟨hv, ?_, ?_⟩
  · intro i hi
    show (v.enum.foldl (fun m p => mapInsert m p.2 p.1) (fun _ => none))
        (v.get ⟨i, hi⟩) = some i
    rw [foldl_mapInsert_apply]
    simp only [List.get_eq_getElem]
    have hlen : i < v.enum.length := by
      rw [List.enum_length]
      exact hi
    have hmem : ((i, v[i]) : Nat × T) ∈ v.enum.reverse := by
      rw [List.mem_reverse]
      have heni : v.enum[i] = (i, v[i]) := List.getElem_enum v i hlen
      rw [← heni]
      exact List.getElem_mem hlen
    rcases hfind : v.enum.reverse.find? (fun p => p.2 = v[i]) with - | p
    · rw [List.find?_eq_none] at hfind
      exact absurd (by simp) (hfind (i, v[i]) hmem)
    · obtain ⟨p1, p2⟩ := p
      have hp2 : p2 = v[i] := by simpa using List.find?_some hfind
      have hpm : (p1, p2) ∈ v.enum :=
        List.mem_reverse.mp (List.mem_of_find?_eq_some hfind)
      obtain ⟨hp1, hpeq⟩ := List.mem_enum hpm
      have : p1 = i := hv.getElem_inj_iff.mp (by rw [← hpeq, hp2])
      rw [hfind]
      simp [this]
  · intro t ht
    show (v.enum.foldl (fun m p => mapInsert m p.2 p.1) (fun _ => none)) t = none
    rw [foldl_mapInsert_apply]
    have hfind : v.enum.reverse.find? (fun p => p.2 = t) = none := by
      rw [List.find?_eq_none]
      rintro ⟨p1, p2⟩ hp
      obtain ⟨h1, h2⟩ := List.mem_enum (List.mem_reverse.mp hp)
      simp only [decide_eq_true_eq]
      intro hcon
      exact ht (hcon ▸ h2 ▸ List.getElem_mem h1)
    rw [hfind]
    simp

/-- Effect of `remove_random` on a consistent, nonempty `VecMap`: it
returns an element that was present, preserves consistency, and removes
exactly that element. -/
theorem remove_random_spec {T : Type} [DecidableEq T] (vm : VecMap T) (g : Rng)
    (hc : Consistent vm) (hne : vm.vec ≠ []) :
    ∃ out vm' g', vm.remove_random g = (some out, vm', g') ∧ out ∈ vm.vec ∧
      Consistent vm' ∧ (∀ x, x ∈ vm'.vec ↔ x ∈ vm.vec ∧ x ≠ out) ∧
      vm'.vec.length + 1 = vm.vec.length := by
  obtain ⟨v, m⟩ := vm
  match v, hne with
  | a :: t, hne =>
  have hnil : (a :: t) ≠ ([] : List T) := by simp
  have hi : g 0 % (a :: t).length < (a :: t).length :=
    Nat.mod_lt _ (by simp)
  have hout : (a :: t).getD (g 0 % (a :: t).length) a =
      (a :: t)[g 0 % (a :: t).length] := List.getD_eq_getElem _ a hi
  have hlst : (a :: t).getLastD a = (a :: t).getLast hnil := by
    rw [List.getLastD_eq_getLast?, List.getLast?_eq_getLast _ hnil]
    rfl
  have hcore := core_update_consistent (a :: t) m (g 0 % (a :: t).length) hc hnil hi
  refine ⟨(a :: t)[g 0 % (a :: t).length],
    ⟨swapRemove (a :: t) (g 0 % (a :: t).length),
      if g 0 % (a :: t).length = (swapRemove (a :: t) (g 0 % (a :: t).length)).length
      then mapRemove m (a :: t)[g 0 % (a :: t).length]
      else mapInsert (mapRemove m (a :: t)[g 0 % (a :: t).length])
        ((a :: t).getLast hnil) (g 0 % (a :: t).length)⟩,
    rngTail g, ?_, List.getElem_mem hi, hcore.1, hcore.2.1, hcore.2.2⟩
  show VecMap.remove_random ⟨a :: t, m⟩ g = _
  simp only [VecMap.remove_random, randBelow]
  rw [hout, hlst]

/-- `remove` on an absent element: `false`, no change at all. -/
theorem remove_spec_not_mem {T : Type} [DecidableEq T] (vm : VecMap T) (item : T)
    (hc : Consistent vm) (hmem : item ∉ vm.vec) : vm.remove item = (false, vm) := by
  have hnone : vm.map item = none := hc.map_none item hmem
  simp [VecMap.remove, hnone]

/-- `remove` on a present element of a consistent `VecMap`: `true`,
consistency preserved, exactly that element removed. -/
theorem remove_spec_mem {T : Type} [DecidableEq T] (vm : VecMap T) (item : T)
    (hc : Consistent vm) (hmem : item ∈ vm.vec) :
    (vm.remove item).1 = true ∧ Consistent (vm.remove item).2 ∧
      (∀ x, x ∈ (vm.remove item).2.vec ↔ x ∈ vm.vec ∧ x ≠ item) ∧
      (vm.remove item).2.vec.length + 1 = vm.vec.length := by
  obtain ⟨v, m⟩ := vm
  obtain ⟨i, hi, hieq⟩ := List.mem_iff_getElem.mp hmem
  have hmap : m item = some i := by
    have h := hc.map_get i hi
    simp only [List.get_eq_getElem] at h
    rw [hieq] at h
    exact h
  match v, hmem, hi, hieq, hmap, hc with
  | a :: t, hmem, hi, hieq, hmap, hc =>
  have hnil : (a :: t) ≠ ([] : List T) := by simp
  have hlst : (a :: t).getLastD a = (a :: t).getLast hnil := by
    rw [List.getLastD_eq_getLast?, List.getLast?_eq_getLast _ hnil]
    rfl
  have hcore := core_update_consistent (a :: t) m i hc hnil hi
  have hred : VecMap.remove ⟨a :: t, m⟩ item =
      (true, ⟨swapRemove (a :: t) i,
        if i = (swapRemove (a :: t) i).length
        then mapRemove m (a :: t)[i]
        else mapInsert (mapRemove m (a :: t)[i]) ((a :: t).getLast hnil) i⟩) := by
    simp only [VecMap.remove, hmap]
    rw [hlst, hieq]
  rw [hred]
  exact ⟨rfl, hcore.1, fun x => hieq ▸ hcore.2.1 x, by
    have := hcore.2.2
    simpa using this⟩

/-- Any reachable `VecMap` state is consistent. -/
theorem reachable_consistent {T : Type} [DecidableEq T] (vm : VecMap T)
    (h : Reachable vm) : Consistent vm := by
  induction h with
  | base v hv => exact new_from_vec_consistent v hv
  | rand vm g hr ih =>
    by_cases hne : vm.vec = []
    · obtain ⟨v, m⟩ := vm
      subst hne
      exact ih
    · obtain ⟨out, vm', g', heq, -, hc', -, -⟩ := remove_random_spec vm g ih hne
      rw [heq]
      exact hc'
  | rem vm item hr ih =>
    by_cases hmem : item ∈ vm.vec
    · exact (remove_spec_mem vm item ih hmem).2.1
    · rw [remove_spec_not_mem vm item ih hmem]
      exact ih

/-- C8: for every `VecMap` state reachable from `new_from_vec` on a
duplicate-free vector by any sequence of `remove_random` and `remove`
calls, every element still present in the vector has its (unique,
because the reverse index is a map) entry equal to its true position,
and removed or absent elements have no entry; the vector also stays
duplicate-free. -/
theorem vecmap_reachable_invariant {T : Type} [DecidableEq T] (vm : VecMap T)
    (h : Reachable vm) :
    vm.vec.Nodup ∧
      (∀ i (hi : i < vm.vec.length), vm.map (vm.vec.get ⟨i, hi⟩) = some i) ∧
      (∀ t, t ∉ vm.vec → vm.map t = none) := by
  have hc := reachable_consistent vm h
  exact ⟨hc.nodup, hc.map_get, hc.map_none⟩

/-- Witness for C8: the initial state on a concrete two-element
duplicate-free vector. -/
theorem vecmap_reachable_invariant_witness :
    (VecMap.new_from_vec [((0, 0) : Loc), (1, 1)]).vec.Nodup ∧
      (∀ i (hi : i < (VecMap.new_from_vec [((0, 0) : Loc), (1, 1)]).vec.length),
        (VecMap.new_from_vec [((0, 0) : Loc), (1, 1)]).map
          ((VecMap.new_from_vec [((0, 0) : Loc), (1, 1)]).vec.get ⟨i, hi⟩) = some i) ∧
      (∀ t, t ∉ (VecMap.new_from_vec [((0, 0) : Loc), (1, 1)]).vec →
        (VecMap.new_from_vec [((0, 0) : Loc), (1, 1)]).map t = none) :=
  vecmap_reachable_invariant (VecMap.new_from_vec [((0, 0) : Loc), (1, 1)])
    (Reachable.base [((0, 0) : Loc), (1, 1)] (by decide))

/-- C9: on a consistent `VecMap`, `remove` of an absent coordinate
returns `false` and changes nothing (vector and map alike), while
`remove` of a present coordinate returns `true`, removes exactly that
coordinate, and preserves the membership of every other coordinate. -/
theorem vecmap_remove_correct {T : Type} [DecidableEq T] (vm : VecMap T)
    (item : T) (hc : Consistent vm) :
    (item ∉ vm.vec → vm.remove item = (false, vm)) ∧
      (item ∈ vm.vec → (vm.remove item).1 = true ∧
        (∀ x, x ∈ (vm.remove item).2.vec ↔ x ∈ vm.vec ∧ x ≠ item)) := by
  constructor
  · intro hmem
    exact remove_spec_not_mem vm item hc hmem
  · intro hmem
    obtain ⟨h1, -, h3, -⟩ := remove_spec_mem vm item hc hmem
    exact ⟨h1, h3⟩

/-- Witness for C9: a concrete three-element set; removal of a present
and behavior toward an absent element follow by applying the theorem. -/
theorem vecmap_remove_correct_witness :
    ((VecMap.new_from_vec [((0, 0) : Loc), (0, 1), (1, 0)]).remove (0, 1)).1 = true ∧
      (∀ x, x ∈ ((VecMap.new_from_vec [((0, 0) : Loc), (0, 1), (1, 0)]).remove
          (0, 1)).2.vec ↔
        x ∈ (VecMap.new_from_vec [((0, 0) : Loc), (0, 1), (1, 0)]).vec ∧ x ≠ (0, 1)) :=
  (vecmap_remove_correct (VecMap.new_from_vec [((0, 0) : Loc), (0, 1), (1, 0)]) (0, 1)
    (new_from_vec_consistent _ (by decide))).2 (by decide)

/-! ## The generation loop: invariant machinery -/

theorem initLocs_mem (size : Nat) (l : Loc) :
    l ∈ initLocs size ↔ l.1 < size ∧ l.2 < size := by
  obtain ⟨x, y⟩ := l
  constructor
  · intro h
    obtain ⟨i, hi, h2⟩ := List.mem_flatMap.mp h
    obtain ⟨j, hj, h3⟩ := List.mem_map.mp h2
    obtain ⟨rfl, rfl⟩ : i = x ∧ j = y := by
      constructor <;> [exact congrArg Prod.fst h3; exact congrArg Prod.snd h3]
    exact ⟨List.mem_range.mp hi, List.mem_range.mp hj⟩
  · rintro ⟨hx, hy⟩
    exact List.mem_flatMap.mpr ⟨x, List.mem_range.mpr hx,
      List.mem_map.mpr ⟨y, List.mem_range.mpr hy, rfl⟩⟩

theorem initLocs_nodup (size : Nat) : (initLocs size).Nodup := by
  rw [initLocs, List.nodup_flatMap]
  constructor
  · intro i hi
    refine List.Nodup.map ?_ (List.nodup_range _)
    intro a b hab
    exact congrArg Prod.snd hab
  · refine List.Pairwise.imp ?_ (List.pairwise_lt_range size)
    intro a b hab
    intro x hxa hxb
    obtain ⟨ja, -, hja⟩ := List.mem_map.mp hxa
    obtain ⟨jb, -, hjb⟩ := List.mem_map.mp hxb
    have h1 : a = x.1 := congrArg Prod.fst hja
    have h2 : b = x.1 := congrArg Prod.fst hjb
    omega

theorem initLocs_length (size : Nat) : (initLocs size).length = size * size := by
  rw [initLocs, List.length_flatMap]
  simp only [Function.comp_def]
  have hmap : (List.range size).map
      (fun i => ((List.range size).map (fun j => ((i, j) : Loc))).length) =
      List.replicate size size := by
    rw [List.eq_replicate_iff]
    refine ⟨by simp, ?_⟩
    intro b hb
    obtain ⟨i, -, hib⟩ := List.mem_map.mp hb
    simp at hib
    omega
  rw [hmap, List.sum_replicate, smul_eq_mul]

/-- The invariant holds before the first iteration. -/
theorem init_inv (cfg : Config) (g : Rng) : Inv cfg (initSt cfg g) := by
  refine ⟨new_from_vec_consistent _ (initLocs_nodup cfg.size), ?_, ?_, ?_, ?_, ?_, ?_⟩
  · intro l hl
    exact (initLocs_mem cfg.size l).mp hl
  · intro l h1 h2
    exact ⟨fun _ => rfl, fun _ => (initLocs_mem cfg.size l).mpr ⟨h1, h2⟩⟩
  · intro l p hp
    exact absurd hp (by simp [initSt])
  · intro l p hp
    exact absurd hp (by simp [initSt])
  · intro l p hp
    exact absurd hp (by simp [initSt])
  · intro p hp
    exact absurd hp (by simp [initSt])

/-- The invariant does not mention the RNG stream. -/
theorem inv_rng (cfg : Config) (st : St) (hInv : Inv cfg st) (g : Rng) :
    Inv cfg { st with rng := g } :=
  ⟨hInv.cons, hInv.openInRange, hInv.partition, hInv.gridInRange, hInv.gridLoc,
    hInv.gridCenter, hInv.lookBounds⟩

theorem remove_random_none {T : Type} [DecidableEq T] (vm : VecMap T) (g : Rng)
    (h : (vm.remove_random g).1 = none) : vm.vec = [] := by
  rcases hv : vm.vec with - | ⟨a, t⟩
  · rfl
  · exfalso
    obtain ⟨v, m⟩ := vm
    simp only at hv
    subst hv
    simp [VecMap.remove_random] at h

/-- `insert_random` can only fail with the `"nonempty"` panic, and only
on an empty open set. -/
theorem insertRandom_error (cfg : Config) (color : Color) (st : St) (e : PanicKind)
    (h : insertRandom cfg color st = .error e) :
    e = .nonempty ∧ st.openLocs.vec = [] := by
  rcases hrr : st.openLocs.remove_random st.rng with ⟨o, vm', g'⟩
  rcases o with - | loc
  · refine ⟨?_, remove_random_none st.openLocs st.rng (by rw [hrr])⟩
    simp only [insertRandom, hrr] at h
    exact (Except.error.injEq _ _ ▸ h).symm
  · exfalso
    simp [insertRandom, hrr] at h

/-- On a consistent, nonempty open set, `insert_random` succeeds. -/
theorem insertRandom_ok_exists (cfg : Config) (color : Color) (st : St)
    (hne : st.openLocs.vec ≠ []) :
    ∃ st', insertRandom cfg color st = .ok st' := by
  rcases h : insertRandom cfg color st with e | st'
  · exact absurd (insertRandom_error cfg color st e h).2 hne
  · exact ⟨st', rfl⟩

/-- Effect of a successful `insert_random` on the invariant: it is
preserved, the open set shrinks by one, and (with a positive buffer
capacity) the recency buffer is nonempty afterwards. -/
theorem insertRandom_ok_spec (cfg : Config) (color : Color) (st st' : St)
    (hInv : Inv cfg st) (h : insertRandom cfg color st = .ok st') :
    Inv cfg st' ∧ st'.openLocs.vec.length + 1 = st.openLocs.vec.length ∧
      (1 ≤ cfg.numLookback → st'.lookback ≠ []) := by
  by_cases hne : st.openLocs.vec = []
  · exfalso
    have hrr : st.openLocs.remove_random st.rng = (none, st.openLocs, st.rng) := by
      rcases hvm : st.openLocs with ⟨v, m⟩
      rw [hvm] at hne
      have hv : v = [] := hne
      subst hv
      rfl
    simp [insertRandom, hrr] at h
  obtain ⟨out, vm', g', heq, hmem, hc', hmemiff, hlen⟩ :=
    remove_random_spec st.openLocs st.rng hInv.cons hne
  rw [show insertRandom cfg color st =
      (let width := seedWidth cfg
       let p0 := randRangeIncl g' (out.1 - width) (min (out.1 + width) (cfg.size - 1))
       let p1 := randRangeIncl p0.2 (out.2 - width) (min (out.2 + width) (cfg.size - 1))
       let pixel : Pixel := ⟨color, out, (p0.1, p1.1)⟩
       .ok { grid := fun l => if l = out then some pixel else st.grid l
             lookback := (pixel :: st.lookback).take cfg.numLookback
             openLocs := vm'
             rng := p1.2 })
    from by simp only [insertRandom, heq]] at h
  simp only [Except.ok.injEq] at h
  subst h
  dsimp only
  have houtb : out.1 < cfg.size ∧ out.2 < cfg.size := hInv.openInRange out hmem
  have hr0 := randRangeIncl_mem g' (out.1 - seedWidth cfg)
    (min (out.1 + seedWidth cfg) (cfg.size - 1)) (by omega)
  have hr1 := randRangeIncl_mem
    (randRangeIncl g' (out.1 - seedWidth cfg)
      (min (out.1 + seedWidth cfg) (cfg.size - 1))).2
    (out.2 - seedWidth cfg) (min (out.2 + seedWidth cfg) (cfg.size - 1)) (by omega)
  refine ⟨⟨hc', ?_, ?_, ?_, ?_, ?_, ?_⟩, hlen, ?_⟩
  · -- openInRange
    intro l hl
    exact hInv.openInRange l ((hmemiff l).mp hl).1
  · -- partition
    intro l h1 h2
    dsimp only
    rw [hmemiff l]
    by_cases hlo : l = out
    · subst hlo
      simp
    · simp only [if_neg hlo]
      rw [hInv.partition l h1 h2]
      simp [hlo]
  · -- gridInRange
    intro l p hp
    dsimp only at hp
    by_cases hlo : l = out
    · subst hlo
      exact houtb
    · rw [if_neg hlo] at hp
      exact hInv.gridInRange l p hp
  · -- gridLoc
    intro l p hp
    dsimp only at hp
    by_cases hlo : l = out
    · subst hlo
      rw [if_pos rfl] at hp
      simp only [Option.some.injEq] at hp
      rw [← hp]
    · rw [if_neg hlo] at hp
      exact hInv.gridLoc l p hp
  · -- gridCenter
    intro l p hp
    dsimp only at hp
    by_cases hlo : l = out
    · subst hlo
      rw [if_pos rfl] at hp
      simp only [Option.some.injEq] at hp
      rw [← hp]
      constructor
      · dsimp only
        omega
      · dsimp only
        omega
    · rw [if_neg hlo] at hp
      exact hInv.gridCenter l p hp
  · -- lookBounds
    intro p hp
    dsimp only at hp
    have hp2 := List.take_subset _ _ hp
    rcases List.mem_cons.mp hp2 with rfl | hp3
    · refine ⟨houtb, ?_, ?_⟩ <;> dsimp only <;> omega
    · exact hInv.lookBounds p hp3
  · -- buffer nonempty
    intro hnl
    match hcap : cfg.numLookback, hnl with
    | n + 1, _ =>
      simp [List.take_succ_cons]

/-- Effect of the commit path on the invariant: given the facts the walk
guarantees about the committed cell, the invariant is preserved, the open
set shrinks by one, and the buffer is nonempty afterwards. -/
theorem commitPixel_spec (cfg : Config) (color : Color) (nearest : Pixel)
    (next : Int × Int) (st : St) (hInv : Inv cfg st) (hnear : nearest ∈ st.lookback)
    (h1 : 0 ≤ next.1) (h2 : next.1 < (cfg.size : Int))
    (h3 : 0 ≤ next.2) (h4 : next.2 < (cfg.size : Int))
    (hgrid : st.grid (next.1.toNat, next.2.toNat) = none) :
    Inv cfg (commitPixel cfg color nearest next st) ∧
      (commitPixel cfg color nearest next st).openLocs.vec.length + 1 =
        st.openLocs.vec.length ∧
      (1 ≤ cfg.numLookback → (commitPixel cfg color nearest next st).lookback ≠ []) := by
  have hloc1 : next.1.toNat < cfg.size := by omega
  have hloc2 : next.2.toNat < cfg.size := by omega
  have hlocmem : (next.1.toNat, next.2.toNat) ∈ st.openLocs.vec :=
    (hInv.partition _ hloc1 hloc2).mpr hgrid
  obtain ⟨-, hc', hmemiff, hlen⟩ := remove_spec_mem st.openLocs _ hInv.cons hlocmem
  obtain ⟨⟨hnl1, hnl2⟩, hnc1, hnc2⟩ := hInv.lookBounds nearest hnear
  unfold commitPixel
  dsimp only
  have hr0 := randRangeIncl_mem st.rng
    (nearest.center.1 - growthWidth cfg (colorDistSq color nearest.color).toNat)
    (min (nearest.center.1 + growthWidth cfg (colorDistSq color nearest.color).toNat)
      cfg.size) (by omega)
  have hr1 := randRangeIncl_mem
    (randRangeIncl st.rng
      (nearest.center.1 - growthWidth cfg (colorDistSq color nearest.color).toNat)
      (min (nearest.center.1 + growthWidth cfg (colorDistSq color nearest.color).toNat)
        cfg.size)).2
    (nearest.center.2 - growthWidth cfg (colorDistSq color nearest.color).toNat)
    (min (nearest.center.2 + growthWidth cfg (colorDistSq color nearest.color).toNat)
      cfg.size) (by omega)
  refine ⟨⟨hc', ?_, ?_, ?_, ?_, ?_, ?_⟩, hlen, ?_⟩
  · -- openInRange
    intro l hl
    exact hInv.openInRange l ((hmemiff l).mp hl).1
  · -- partition
    intro l hb1 hb2
    dsimp only
    rw [hmemiff l]
    by_cases hlo : l = (next.1.toNat, next.2.toNat)
    · subst hlo
      simp
    · simp only [if_neg hlo]
      rw [hInv.partition l hb1 hb2]
      simp [hlo]
  · -- gridInRange
    intro l p hp
    dsimp only at hp
    by_cases hlo : l = (next.1.toNat, next.2.toNat)
    · subst hlo
      exact ⟨hloc1, hloc2⟩
    · rw [if_neg hlo] at hp
      exact hInv.gridInRange l p hp
  · -- gridLoc
    intro l p hp
    dsimp only at hp
    by_cases hlo : l = (next.1.toNat, next.2.toNat)
    · subst hlo
      rw [if_pos rfl] at hp
      simp only [Option.some.injEq] at hp
      rw [← hp]
    · rw [if_neg hlo] at hp
      exact hInv.gridLoc l p hp
  · -- gridCenter
    intro l p hp
    dsimp only at hp
    by_cases hlo : l = (next.1.toNat, next.2.toNat)
    · subst hlo
      rw [if_pos rfl] at hp
      simp only [Option.some.injEq] at hp
      rw [← hp]
      constructor
      · dsimp only
        omega
      · dsimp only
        omega
    · rw [if_neg hlo] at hp
      exact hInv.gridCenter l p hp
  · -- lookBounds
    intro p hp
    dsimp only at hp
    have hp2 := List.take_subset _ _ hp
    rcases List.mem_cons.mp hp2 with rfl | hp3
    · refine ⟨⟨hloc1, hloc2⟩, ?_, ?_⟩ <;> dsimp only <;> omega
    · exact hInv.lookBounds p hp3
  · -- buffer nonempty
    intro hnl
    match hcap : cfg.numLookback, hnl with
    | n + 1, _ =>
      simp [List.take_succ_cons]

/-- With a nonempty recency buffer, the growth phase fails only with the
`"nonempty"` panic (and only on an empty open set): the nearest-pixel
selection succeeds, the walk neither runs out (the model's fuel exceeds
the safety valve) nor panics, and both outcomes lead to insertion. -/
theorem growthStep_error (cfg : Config) (color : Color) (st : St) (e : PanicKind)
    (hlb : st.lookback ≠ []) (h : growthStep cfg color st = .error e) :
    e = .nonempty ∧ st.openLocs.vec = [] := by
  obtain ⟨nearest, hsel⟩ : ∃ p, selectNearest color st.lookback = some p :=
    minByKey?_isSome _ _ hlb
  simp only [growthStep, hsel] at h
  have hr0 : (0 : Int) ≤ distSq nearest.center ((nearest.loc.1 : Int), (nearest.loc.2 : Int)) :=
    distSq_nonneg _ _
  rcases hwalk : walk cfg.size st.grid nearest.center
      (distSq nearest.center ((nearest.loc.1 : Int), (nearest.loc.2 : Int)))
      ((nearest.loc.1 : Int), (nearest.loc.2 : Int))
      ((nearest.loc.1 : Int), (nearest.loc.2 : Int))
      ((nearest.loc.1 : Int), (nearest.loc.2 : Int)) 0
      (8 * (distSq nearest.center ((nearest.loc.1 : Int), (nearest.loc.2 : Int))).toNat + 2)
    with - | - | - | next
  · exact absurd hwalk (walk_fuel_sufficient _ _ _ _ _ _ 0 _ _
      (by push_cast; omega) (by omega))
  · exact absurd hwalk (walk_ne_panicked _ _ _ _ _ _ _ _ _)
  · rw [hwalk] at h
    exact insertRandom_error cfg color st e h
  · rw [hwalk] at h
    exact absurd h (by simp)

/-- On a state with nonempty open set and nonempty buffer, the growth
phase succeeds. -/
theorem growthStep_ok_exists (cfg : Config) (color : Color) (st : St)
    (hne : st.openLocs.vec ≠ []) (hlb : st.lookback ≠ []) :
    ∃ st', growthStep cfg color st = .ok st' := by
  rcases h : growthStep cfg color st with e | st'
  · exact absurd (growthStep_error cfg color st e hlb h).2 hne
  · exact ⟨st', rfl⟩

/-- A successful growth step preserves the invariant, shrinks the open
set by one, and leaves a nonempty buffer. -/
theorem growthStep_ok_spec (cfg : Config) (color : Color) (st st' : St)
    (hInv : Inv cfg st) (h : growthStep cfg color st = .ok st') :
    Inv cfg st' ∧ st'.openLocs.vec.length + 1 = st.openLocs.vec.length ∧
      (1 ≤ cfg.numLookback → st'.lookback ≠ []) := by
  rcases hsel : selectNearest color st.lookback with - | nearest
  · simp [growthStep, hsel] at h
  · have hnmem : nearest ∈ st.lookback := minByKey?_mem _ _ _ hsel
    simp only [growthStep, hsel] at h
    rcases hwalk : walk cfg.size st.grid nearest.center
        (distSq nearest.center ((nearest.loc.1 : Int), (nearest.loc.2 : Int)))
        ((nearest.loc.1 : Int), (nearest.loc.2 : Int))
        ((nearest.loc.1 : Int), (nearest.loc.2 : Int))
        ((nearest.loc.1 : Int), (nearest.loc.2 : Int)) 0
        (8 * (distSq nearest.center ((nearest.loc.1 : Int), (nearest.loc.2 : Int))).toNat + 2)
      with - | - | - | next
    · rw [hwalk] at h
      exact absurd h (by simp)
    · rw [hwalk] at h
      exact absurd h (by simp)
    · rw [hwalk] at h
      exact insertRandom_ok_spec cfg color st st' hInv h
    · rw [hwalk] at h
      simp only [Except.ok.injEq] at h
      subst h
      obtain ⟨hb1, hb2, hb3, hb4, hbg⟩ := walk_commit_props cfg.size st.grid
        nearest.center _ _ _ _ _ _ next hwalk
      exact commitPixel_spec cfg color nearest next st hInv hnmem hb1 hb2 hb3 hb4 hbg

theorem take_cons_ne_nil {α : Type} (a : α) (l : List α) (n : Nat) (hn : 1 ≤ n) :
    (a :: l).take n ≠ [] := by
  match n, hn with
  | m + 1, _ => simp [List.take_succ_cons]

/-- Every successful `insert_random` pushes onto the buffer. -/
theorem insertRandom_ok_lookback (cfg : Config) (color : Color) (st st' : St)
    (h : insertRandom cfg color st = .ok st') (hnl : 1 ≤ cfg.numLookback) :
    st'.lookback ≠ [] := by
  rcases hrr : st.openLocs.remove_random st.rng with ⟨o, vm', g'⟩
  rcases o with - | loc
  · simp [insertRandom, hrr] at h
  · simp only [insertRandom, hrr] at h
    simp only [Except.ok.injEq] at h
    subst h
    exact take_cons_ne_nil _ _ _ hnl

/-- Every successful growth step pushes onto the buffer. -/
theorem growthStep_ok_lookback (cfg : Config) (color : Color) (st st' : St)
    (h : growthStep cfg color st = .ok st') (hnl : 1 ≤ cfg.numLookback) :
    st'.lookback ≠ [] := by
  rcases hsel : selectNearest color st.lookback with - | nearest
  · simp [growthStep, hsel] at h
  · simp only [growthStep, hsel] at h
    rcases hwalk : walk cfg.size st.grid nearest.center
        (distSq nearest.center ((nearest.loc.1 : Int), (nearest.loc.2 : Int)))
        ((nearest.loc.1 : Int), (nearest.loc.2 : Int))
        ((nearest.loc.1 : Int), (nearest.loc.2 : Int))
        ((nearest.loc.1 : Int), (nearest.loc.2 : Int)) 0
        (8 * (distSq nearest.center ((nearest.loc.1 : Int), (nearest.loc.2 : Int))).toNat + 2)
      with - | - | - | next
    · rw [hwalk] at h
      exact absurd h (by simp)
    · rw [hwalk] at h
      exact absurd h (by simp)
    · rw [hwalk] at h
      exact insertRandom_ok_lookback cfg color st st' h hnl
    · rw [hwalk] at h
      simp only [Except.ok.injEq] at h
      subst h
      exact take_cons_ne_nil _ _ _ hnl

/-- A successful iteration pushes onto the buffer (no invariant needed). -/
theorem iterStep_ok_lookback (cfg : Config) (i : Nat) (st st' : St)
    (h : iterStep cfg i st = .ok st') (hnl : 1 ≤ cfg.numLookback) :
    st'.lookback ≠ [] := by
  by_cases hi : i < cfg.numCenters
  · simp only [iterStep, if_pos hi] at h
    exact insertRandom_ok_lookback cfg _ _ st' h hnl
  · simp only [iterStep, if_neg hi] at h
    exact growthStep_ok_lookback cfg _ _ st' h hnl

/-- An iteration starting from a state whose buffer is nonempty in the
growth phase fails only with the `"nonempty"` panic. -/
theorem iterStep_error (cfg : Config) (i : Nat) (st : St) (e : PanicKind)
    (hlb : cfg.numCenters ≤ i → st.lookback ≠ [])
    (h : iterStep cfg i st = .error e) : e = .nonempty := by
  by_cases hi : i < cfg.numCenters
  · simp only [iterStep, if_pos hi] at h
    exact (insertRandom_error cfg _ _ e h).1
  · simp only [iterStep, if_neg hi] at h
    refine (growthStep_error cfg _ _ e ?_ h).1
    exact hlb (le_of_not_lt hi)

/-- A successful iteration preserves the invariant and shrinks the open
set by exactly one. -/
theorem iterStep_ok_spec (cfg : Config) (i : Nat) (st st' : St) (hInv : Inv cfg st)
    (h : iterStep cfg i st = .ok st') :
    Inv cfg st' ∧ st'.openLocs.vec.length + 1 = st.openLocs.vec.length ∧
      (1 ≤ cfg.numLookback → st'.lookback ≠ []) := by
  by_cases hi : i < cfg.numCenters
  · simp only [iterStep, if_pos hi] at h
    exact insertRandom_ok_spec cfg _
      { st with rng := (randByte (randByte (randByte st.rng).2).2).2 } st'
      (inv_rng cfg st hInv (randByte (randByte (randByte st.rng).2).2).2) h
  · simp only [iterStep, if_neg hi] at h
    exact growthStep_ok_spec cfg _
      { st with rng := (randByte (randByte (randByte st.rng).2).2).2 } st'
      (inv_rng cfg st hInv (randByte (randByte (randByte st.rng).2).2).2) h

/-- On a state with a nonempty open set whose buffer is nonempty in the
growth phase, an iteration succeeds. -/
theorem iterStep_ok_exists (cfg : Config) (i : Nat) (st : St)
    (hne : st.openLocs.vec ≠ []) (hlb : cfg.numCenters ≤ i → st.lookback ≠ []) :
    ∃ st', iterStep cfg i st = .ok st' := by
  by_cases hi : i < cfg.numCenters
  · simp only [iterStep, if_pos hi]
    exact insertRandom_ok_exists cfg _ _ hne
  · simp only [iterStep, if_neg hi]
    exact growthStep_ok_exists cfg _ _ hne (hlb (le_of_not_lt hi))

/-- The master invariant, the open-set count, and buffer nonemptiness
hold at every iteration boundary the run reaches. -/
theorem runN_inv (cfg : Config) (g : Rng) :
    ∀ (i : Nat) (st : St), runN cfg g i = .ok st →
      Inv cfg st ∧ st.openLocs.vec.length + i = cfg.size * cfg.size ∧
        (1 ≤ cfg.numLookback → 1 ≤ i → st.lookback ≠ []) := by
  intro i
  induction i with
  | zero =>
    intro st h
    obtain rfl : initSt cfg g = st := by simpa [runN] using h
    refine ⟨init_inv cfg g, ?_, ?_⟩
    · show (initLocs cfg.size).length + 0 = cfg.size * cfg.size
      rw [initLocs_length]
      omega
    · intro _ hcon
      omega
  | succ i ih =>
    intro st h
    simp only [runN] at h
    rcases hprev : runN cfg g i with e | st0
    · rw [hprev] at h
      exact absurd h (by simp)
    · rw [hprev] at h
      obtain ⟨hInv0, hlen0, -⟩ := ih st0 hprev
      obtain ⟨hInv, hlen, hlb⟩ := iterStep_ok_spec cfg i st0 st hInv0 h
      exact ⟨hInv, by omega, fun hc _ => hlb hc⟩

/-- With at least one seed and a positive buffer capacity, the run never
panics: each of the `size²` iterations succeeds. -/
theorem runN_ok (cfg : Config) (g : Rng) (hnc : 1 ≤ cfg.numCenters)
    (hnl : 1 ≤ cfg.numLookback) :
    ∀ i, i ≤ cfg.size * cfg.size → ∃ st, runN cfg g i = .ok st := by
  intro i
  induction i with
  | zero => exact fun _ => ⟨initSt cfg g, rfl⟩
  | succ i ih =>
    intro hile
    obtain ⟨st0, hok⟩ := ih (by omega)
    obtain ⟨hInv0, hlen0, hlb0⟩ := runN_inv cfg g i st0 hok
    have hne : st0.openLocs.vec ≠ [] := by
      intro hcon
      rw [hcon] at hlen0
      simp at hlen0
      omega
    have hlb : cfg.numCenters ≤ i → st0.lookback ≠ [] :=
      fun hci => hlb0 hnl (by omega)
    obtain ⟨st', hstep⟩ := iterStep_ok_exists cfg i st0 hne hlb
    refine ⟨st', ?_⟩
    simp only [runN]
    rw [hok]
    exact hstep

/-- The `"find one"` panic of the nearest-pixel selection never fires
when there is at least one seed and a positive buffer capacity. -/
theorem runN_ne_findOne (cfg : Config) (g : Rng) (hnc : 1 ≤ cfg.numCenters)
    (hnl : 1 ≤ cfg.numLookback) :
    ∀ i, runN cfg g i ≠ .error .findOne := by
  have main : ∀ i, (∃ st, runN cfg g i = .ok st ∧ (1 ≤ i → st.lookback ≠ [])) ∨
      (∃ e, runN cfg g i = .error e ∧ e ≠ .findOne) := by
    intro i
    induction i with
    | zero => exact Or.inl ⟨initSt cfg g, rfl, by omega⟩
    | succ i ih =>
      rcases ih with ⟨st0, hok, hlb⟩ | ⟨e, herr, hne⟩
      · rcases hstep : iterStep cfg i st0 with e | st'
        · refine Or.inr ⟨e, ?_, ?_⟩
          · simp only [runN]
            rw [hok]
            exact hstep
          · have he : e = .nonempty :=
              iterStep_error cfg i st0 e (fun hci => hlb (by omega)) hstep
            simp [he]
        · refine Or.inl ⟨st', ?_, fun _ => iterStep_ok_lookback cfg i st0 st' hstep hnl⟩
          simp only [runN]
          rw [hok]
          exact hstep
      · refine Or.inr ⟨e, ?_, hne⟩
        simp only [runN]
        rw [herr]
  intro i hcon
  rcases main i with ⟨st, hok, -⟩ | ⟨e, herr, hne⟩
  · rw [hok] at hcon
    exact absurd hcon (by simp)
  · rw [herr] at hcon
    simp only [Except.error.injEq] at hcon
    exact hne hcon

/-! ## Claims C1, C2, C3 and C10 -/

/-- C1 (amended: at least one seed center is required, `1 ≤ num_centers`;
with `num_centers = 0` and `size ≥ 1` the first iteration panics on the
empty recency buffer, see the counterexample): for every configuration
with `size ≥ 1`, `1 ≤ num_centers ≤ size²`, `num_lookback ≥ 1` and every
RNG stream, the generation loop completes its `size²` iterations, every
in-bounds coordinate holds a pixel, the pixel stored at a cell records
that cell as its `loc` (so no two committed pixels share a `loc`, and
each cell holds exactly the one pixel committed to it), and the
Random-Removal Set is empty. -/
theorem generation_completes (cfg : Config) (g : Rng)
    (hs : 1 ≤ cfg.size) (hc1 : 1 ≤ cfg.numCenters)
    (hc2 : cfg.numCenters ≤ cfg.size * cfg.size) (hl : 1 ≤ cfg.numLookback) :
    ∃ st, runN cfg g (cfg.size * cfg.size) = .ok st ∧
      (∀ l : Loc, l.1 < cfg.size → l.2 < cfg.size → ∃ p, st.grid l = some p) ∧
      (∀ l p, st.grid l = some p → p.loc = l) ∧
      st.openLocs.vec = [] := by
  obtain ⟨st, hok⟩ := runN_ok cfg g hc1 hl (cfg.size * cfg.size) le_rfl
  obtain ⟨hInv, hlen, -⟩ := runN_inv cfg g _ st hok
  have hlen0 : st.openLocs.vec.length = 0 := by omega
  have hempty : st.openLocs.vec = [] := List.eq_nil_of_length_eq_zero hlen0
  refine ⟨st, hok, ?_, hInv.gridLoc, hempty⟩
  intro l h1 h2
  rcases hgl : st.grid l with - | p
  · exfalso
    have hmem := (hInv.partition l h1 h2).mpr hgl
    rw [hempty] at hmem
    exact absurd hmem (by simp)
  · exact ⟨p, rfl⟩

/-- Witness for C1 (amended) at the smallest valid configuration. -/
theorem generation_completes_witness :
    (1 ≤ (1 : Nat)) ∧
      ∃ st, runN ⟨1, 1, 1, 0, 1, 0, 1⟩ (fun _ => 0) (1 * 1) = .ok st ∧
        (∀ l : Loc, l.1 < 1 → l.2 < 1 → ∃ p, st.grid l = some p) ∧
        (∀ l p, st.grid l = some p → p.loc = l) ∧
        st.openLocs.vec = [] :=
  ⟨le_refl 1, generation_completes ⟨1, 1, 1, 0, 1, 0, 1⟩ (fun _ => 0)
    (by decide) (by decide) (by decide) (by decide)⟩

/-- Counterexample to C1 as stated: the claim admits `num_centers = 0`,
but then (here at `size = 1`, any stream) the first iteration is a
growth-phase iteration over an empty recency buffer and the program
panics at `expect("find one")`: the loop never completes and no final
state exists, let alone a fully covered grid. -/
theorem generation_completes_cex :
    runN ⟨1, 0, 1, 0, 1, 0, 1⟩ (fun _ => 0) (1 * 1) = .error .findOne ∧
      ∀ st : St, ¬(runN ⟨1, 0, 1, 0, 1, 0, 1⟩ (fun _ => 0) (1 * 1) = .ok st) := by
  have h : runN ⟨1, 0, 1, 0, 1, 0, 1⟩ (fun _ => 0) (1 * 1) = .error .findOne := rfl
  refine ⟨h, fun st hcon => ?_⟩
  rw [h] at hcon
  exact absurd hcon (by simp)

/-- C2 (amended: committed centers lie within `[0, size]`, not
`[0, size-1]` — the growth phase clamps each center axis with
`min (c + width) size`, so the value `size` is reachable, see the
counterexample; `loc` is within `[0, size-1]` as claimed): every pixel
ever committed to the grid in any reachable state has `loc` within
`[0, size-1]` and `center` within `[0, size]` on both axes. -/
theorem pixel_bounds (cfg : Config) (g : Rng) (i : Nat) (st : St)
    (h : runN cfg g i = .ok st) :
    ∀ l p, st.grid l = some p →
      p.loc.1 ≤ cfg.size - 1 ∧ p.loc.2 ≤ cfg.size - 1 ∧
        p.center.1 ≤ cfg.size ∧ p.center.2 ≤ cfg.size := by
  obtain ⟨hInv, -, -⟩ := runN_inv cfg g i st h
  intro l p hp
  obtain ⟨b1, b2⟩ := hInv.gridInRange l p hp
  obtain ⟨c1, c2⟩ := hInv.gridCenter l p hp
  have hl := hInv.gridLoc l p hp
  rw [hl]
  exact ⟨by omega, by omega, c1, c2⟩

/-- Witness for C2 (amended): after one iteration of a 2×2 run (all-zero
stream) the cell `(0,0)` holds the seed pixel with center `(0,0)`; its
bounds follow by applying the theorem to the computed state. -/
theorem pixel_bounds_witness :
    runN ⟨2, 1, 1, 1, 2, 0, 1⟩ (fun _ => 0) 1 =
      Except.ok ((runN ⟨2, 1, 1, 1, 2, 0, 1⟩ (fun _ => 0) 1).toOption.getD
        (initSt ⟨2, 1, 1, 1, 2, 0, 1⟩ (fun _ => 0))) ∧
    ((runN ⟨2, 1, 1, 1, 2, 0, 1⟩ (fun _ => 0) 1).toOption.getD
        (initSt ⟨2, 1, 1, 1, 2, 0, 1⟩ (fun _ => 0))).grid (0, 0) =
      some ⟨(0, 0, 0), (0, 0), (0, 0)⟩ ∧
    ((Pixel.mk (0, 0, 0) (0, 0) (0, 0)).loc.1 ≤ 2 - 1 ∧
      (Pixel.mk (0, 0, 0) (0, 0) (0, 0)).loc.2 ≤ 2 - 1 ∧
      (Pixel.mk (0, 0, 0) (0, 0) (0, 0)).center.1 ≤ 2 ∧
      (Pixel.mk (0, 0, 0) (0, 0) (0, 0)).center.2 ≤ 2) :=
  ⟨rfl, by decide,
    pixel_bounds ⟨2, 1, 1, 1, 2, 0, 1⟩ (fun _ => 0) 1
      ((runN ⟨2, 1, 1, 1, 2, 0, 1⟩ (fun _ => 0) 1).toOption.getD
        (initSt ⟨2, 1, 1, 1, 2, 0, 1⟩ (fun _ => 0))) rfl (0, 0)
      ⟨(0, 0, 0), (0, 0), (0, 0)⟩ (by decide)⟩

set_option maxRecDepth 100000 in
/-- Counterexample to C2 as stated: at `size = 2`,
`num_centers = num_lookback = 1`, `start_spread = 1/2`, `cont_spread = 0`
and a stream steering the seed to `loc (0,0)` with `center (1,1)`, the
second iteration commits a pixel at `(0, 1)` whose center is `(2, 0)`:
its first axis equals `size = 2`, outside `[0, size-1] = [0, 1]`. -/
theorem pixel_bounds_cex :
    (match runN ⟨2, 1, 1, 1, 2, 0, 1⟩
        (fun n => [0, 0, 0, 0, 1, 1, 0, 0, 0, 2, 0].getD n 0) 2 with
      | .ok st => (st.grid (0, 1)).map Pixel.center
      | .error _ => none) = some (2, 0) ∧ ¬((2 : Nat) ≤ 2 - 1) :=
  ⟨by decide, by decide⟩

/-- C3: at every iteration boundary the run reaches, the set of open
locations and the set of filled grid coordinates are disjoint, and
together they cover exactly the `size × size` coordinate space. -/
theorem partition_invariant (cfg : Config) (g : Rng) (i : Nat) (st : St)
    (h : runN cfg g i = .ok st) :
    (∀ l : Loc, ¬(l ∈ st.openLocs.vec ∧ (st.grid l).isSome)) ∧
      (∀ l : Loc, (l.1 < cfg.size ∧ l.2 < cfg.size) ↔
        (l ∈ st.openLocs.vec ∨ (st.grid l).isSome)) := by
  obtain ⟨hInv, -, -⟩ := runN_inv cfg g i st h
  constructor
  · rintro l ⟨hmem, hsome⟩
    obtain ⟨b1, b2⟩ := hInv.openInRange l hmem
    rw [(hInv.partition l b1 b2).mp hmem] at hsome
    exact absurd hsome (by simp)
  · intro l
    constructor
    · rintro ⟨b1, b2⟩
      rcases hgl : st.grid l with - | p
      · exact Or.inl ((hInv.partition l b1 b2).mpr hgl)
      · exact Or.inr rfl
    · rintro (hmem | hsome)
      · exact hInv.openInRange l hmem
      · rcases hgl : st.grid l with - | p
        · rw [hgl] at hsome
          exact absurd hsome (by simp)
        · exact hInv.gridInRange l p hgl

/-- Witness for C3 at the boundary before the first iteration of a 2×2
run (the hypothesis is discharged by `rfl`). -/
theorem partition_invariant_witness :
    (∀ l : Loc, ¬(l ∈ (initSt ⟨2, 1, 1, 1, 2, 0, 1⟩ (fun _ => 0)).openLocs.vec ∧
        ((initSt ⟨2, 1, 1, 1, 2, 0, 1⟩ (fun _ => 0)).grid l).isSome)) ∧
      (∀ l : Loc, (l.1 < 2 ∧ l.2 < 2) ↔
        (l ∈ (initSt ⟨2, 1, 1, 1, 2, 0, 1⟩ (fun _ => 0)).openLocs.vec ∨
          ((initSt ⟨2, 1, 1, 1, 2, 0, 1⟩ (fun _ => 0)).grid l).isSome)) :=
  partition_invariant ⟨2, 1, 1, 1, 2, 0, 1⟩ (fun _ => 0) 0
    (initSt ⟨2, 1, 1, 1, 2, 0, 1⟩ (fun _ => 0)) rfl

/-- C10: with `size ≥ 1`, `num_centers ≥ 1` and `num_lookback ≥ 1` the
recency buffer is nonempty at the start of every growth-phase iteration
(every earlier iteration pushes a pixel), so the `expect("find one")`
branch of the nearest-pixel selection is unreachable: no prefix of the
run ever fails with it.  With `num_centers = 0` (which the spec's
configuration range `0 ≤ num_centers ≤ size²` permits) and `size ≥ 1`,
the very first iteration performs the selection on the empty buffer and
that branch is reached. -/
theorem lookback_panic_dichotomy (cfg : Config) (g : Rng) :
    (1 ≤ cfg.size → 1 ≤ cfg.numCenters → 1 ≤ cfg.numLookback →
      ∀ i, runN cfg g i ≠ .error .findOne) ∧
    (cfg.numCenters = 0 → 1 ≤ cfg.size → runN cfg g 1 = .error .findOne) := by
  constructor
  · intro _ hnc hnl i
    exact runN_ne_findOne cfg g hnc hnl i
  · intro hnc _
    show iterStep cfg 0 (initSt cfg g) = .error .findOne
    have hni : ¬(0 < cfg.numCenters) := by omega
    simp only [iterStep, if_neg hni]
    rfl

/-- Witness for C10: both parts at concrete configurations (size 1, one
iteration). -/
theorem lookback_panic_dichotomy_witness :
    runN ⟨1, 1, 1, 0, 1, 0, 1⟩ (fun _ => 0) 1 ≠ .error .findOne ∧
      runN ⟨1, 0, 1, 0, 1, 0, 1⟩ (fun _ => 0) 1 = .error .findOne :=
  ⟨(lookback_panic_dichotomy ⟨1, 1, 1, 0, 1, 0, 1⟩ (fun _ => 0)).1
      (by decide) (by decide) (by decide) 1,
    (lookback_panic_dichotomy ⟨1, 0, 1, 0, 1, 0, 1⟩ (fun _ => 0)).2 rfl (by decide)⟩

end Spinning
